import Mathlib

/-!
Verification of the malaria cell-detection pipeline (`malaria_diagmal.py`).

The source is a single Python script that detects infected cells and normal
red blood cells in a microscopy image.  We shallowly embed the algorithmic
core in Lean: configuration constants, the Sobel binarizer's thresholding,
the HSV infection-color classifier (including morphology and the
connected-component area filter), the greedy overlap resolver
`remove_overlapping_circles`, the cross-class exclusion step inside
`detect_rb_cells`, the `np.arange` radius-candidate construction, and the
top-level pipeline wiring.

External library primitives (`skimage.filters.sobel`, `hough_circle`,
`hough_circle_peaks`) are not code of this repository; they are taken as
function parameters where a claim's content does not depend on them, while
numpy/skimage primitives whose exact semantics the claims do depend on
(`np.argsort`, array comparison/assignment, `rgb2hsv`, `binary_closing`,
`binary_opening`, `binary_dilation`, `disk`, connected-component labeling
with area filtering, `np.arange`) are embedded from their documented
semantics, faithfully to how the script calls them.

Real-valued pixel data and scores are modelled over an arbitrary linear
ordered field (instantiated at `ℚ` for executable instances and at `ℝ` where
a claim speaks about exact Euclidean distances).  The square root in
`np.sqrt(dx**2 + dy**2) < bound` is translated by the equivalence
`Real.sqrt s < b ↔ 0 < b ∧ s < b ^ 2` (valid since `s ≥ 0`); the lemma
`too_close_iff_sqrt` below records this bridge.
-/

namespace MalariaDiag

/-! ### Configuration constants (`malaria_diagmal.py` lines 16-58) -/

def THRESHOLD_MULTIPLIER : ℚ := 3 / 100

def HUE_MIN : ℚ := 55 / 100

def HUE_MAX : ℚ := 95 / 100

def SAT_MIN : ℚ := 15 / 100

def SAT_MAX : ℚ := 1

def VAL_MIN : ℚ := 1 / 10

def VAL_MAX : ℚ := 75 / 100

def HSV_MORPH_DISK_CLOSE : ℕ := 5

def HSV_MORPH_DISK_OPEN : ℕ := 3

def MIN_MALARIA_AREA : ℕ := 200

def MALARIA_RADIUS_MIN : ℤ := 75

def MALARIA_RADIUS_MAX : ℤ := 80

def MALARIA_RADIUS_STEP : ℤ := 2

def RBC_RADIUS_MIN : ℤ := 70

def RBC_RADIUS_MAX : ℤ := 100

def RBC_RADIUS_STEP : ℤ := 5

def MAX_MALARIA_CELLS : ℕ := 50

def MAX_RBC_CELLS : ℕ := 200

def MIN_DISTANCE_MALARIA : ℚ := 100

def MIN_DISTANCE_RBC : ℚ := 100

def MALARIA_MASK_DILATION : ℕ := 40

/-! ### Circles and the overlap resolver (`remove_overlapping_circles`, lines 79-103)

The Python function receives four parallel arrays `cx, cy, radii, accums`;
we embed the zipped form as a list of `Circle` records. -/

structure Circle (α : Type) where
  cx : α
  cy : α
  radius : α
  accum : α
deriving DecidableEq, Repr

variable {α : Type} [LinearOrderedField α]

/-- Squared Euclidean center distance, `(cx[i]-cx[j])**2 + (cy[i]-cy[j])**2`
(line 93 before the `np.sqrt`). -/
def dist2 (a b : Circle α) : α :=
  (a.cx - b.cx) ^ 2 + (a.cy - b.cy) ^ 2

/-- The test `np.sqrt((cx[i]-cx[j])**2 + (cy[i]-cy[j])**2) < min_distance`
(lines 93-94), translated to field operations: since the squared distance is
nonnegative, `sqrt d < m` holds iff `0 < m ∧ d < m ^ 2`. -/
def too_close (a b : Circle α) (minDistance : α) : Prop :=
  0 < minDistance ∧ dist2 a b < minDistance ^ 2

instance (a b : Circle α) (m : α) : Decidable (too_close a b m) := by
  unfold too_close; infer_instance

theorem dist2_nonneg (a b : Circle α) : 0 ≤ dist2 a b := by
  unfold dist2; positivity

theorem dist2_comm (a b : Circle α) : dist2 a b = dist2 b a := by
  unfold dist2; ring

/-- Bridge justifying the square-root translation: for rational-coordinate
circles, `too_close` is exactly the source's real-valued comparison
`np.sqrt(dist2) < min_distance`. -/
theorem too_close_iff_sqrt (a b : Circle ℚ) (m : ℚ) :
    too_close a b m ↔ Real.sqrt ((dist2 a b : ℚ) : ℝ) < (m : ℝ) := by
  unfold too_close
  constructor
  · rintro ⟨hm, hd⟩
    have hm2 : (0 : ℝ) < (m : ℝ) := by exact_mod_cast hm
    rw [show ((dist2 a b : ℚ) : ℝ) = ((dist2 a b : ℚ) : ℝ) from rfl]
    refine (Real.sqrt_lt' hm2).mpr ?_
    exact_mod_cast hd
  · intro hs
    have hm2 : (0 : ℝ) < (m : ℝ) := lt_of_le_of_lt (Real.sqrt_nonneg _) hs
    have hm : 0 < m := by exact_mod_cast hm2
    refine ⟨hm, ?_⟩
    have := (Real.sqrt_lt' hm2).mp hs
    exact_mod_cast this

/-- Comparator for `np.argsort(accums)` on index-circle pairs.  `np.argsort`
returns the indices that sort the array ascending; on deterministic
tie-handling it keeps equal values in original index order, which is exactly
sorting by the lexicographic key (value, index). -/
def arg_le (p q : ℕ × Circle α) : Prop :=
  p.2.accum < q.2.accum ∨ (p.2.accum = q.2.accum ∧ p.1 ≤ q.1)

instance (p q : ℕ × Circle α) : Decidable (arg_le p q) := by
  unfold arg_le; infer_instance

/-- Insert into an ascending list, keeping `arg_le` order. -/
def insert_sorted (p : ℕ × Circle α) : List (ℕ × Circle α) → List (ℕ × Circle α)
  | [] => [p]
  | q :: qs => if arg_le p q then p :: q :: qs else q :: insert_sorted p qs

/-- Ascending sort of the enumerated circle list by accumulator value,
modelling `np.argsort(accums)` together with the subsequent indexing. -/
def argsort_enum : List (ℕ × Circle α) → List (ℕ × Circle α)
  | [] => []
  | p :: ps => insert_sorted p (argsort_enum ps)

/-- Embedding of `sorted_indices = np.argsort(accums)[::-1]` (line 85): the order in which
the greedy loop (lines 89-99) visits the candidate circles. -/
def processing_order (cs : List (Circle α)) : List (ℕ × Circle α) :=
  (argsort_enum cs.enum).reverse

/-- The greedy loop of lines 89-99: walk the candidates, keep a circle iff it
is not `too_close` to any previously kept circle. -/
def keep_loop (minDistance : α) : List (Circle α) → List (Circle α) → List (Circle α)
  | kept, [] => kept
  | kept, c :: rest =>
    if ∀ k ∈ kept, ¬ too_close c k minDistance then
      keep_loop minDistance (kept ++ [c]) rest
    else
      keep_loop minDistance kept rest

/-- Embedding of `remove_overlapping_circles` (lines 79-103): sort by accumulator
descending (`np.argsort(accums)[::-1]`), then greedily keep circles whose
distance to every already-kept circle is at least `min_distance`.  The
returned list is the kept circles in acceptance order, matching
`cx[keep_indices]` etc. -/
def remove_overlapping_circles (cs : List (Circle α)) (minDistance : α) :
    List (Circle α) :=
  keep_loop minDistance [] ((processing_order cs).map Prod.snd)

/-! ### Structural lemmas about the argsort model -/

theorem arg_le_total (p q : ℕ × Circle α) : arg_le p q ∨ arg_le q p := by
  unfold arg_le
  rcases lt_trichotomy p.2.accum q.2.accum with h | h | h
  · exact Or.inl (Or.inl h)
  · rcases Nat.le_total p.1 q.1 with hi | hi
    · exact Or.inl (Or.inr ⟨h, hi⟩)
    · exact Or.inr (Or.inr ⟨h.symm, hi⟩)
  · exact Or.inr (Or.inl h)

theorem arg_le_trans {p q r : ℕ × Circle α} (h1 : arg_le p q) (h2 : arg_le q r) :
    arg_le p r := by
  unfold arg_le at *
  rcases h1 with h1 | ⟨h1, hi1⟩
  · rcases h2 with h2 | ⟨h2, _⟩
    · exact Or.inl (h1.trans h2)
    · exact Or.inl (h2 ▸ h1)
  · rcases h2 with h2 | ⟨h2, hi2⟩
    · exact Or.inl (h1 ▸ h2)
    · exact Or.inr ⟨h1.trans h2, hi1.trans hi2⟩

theorem insert_sorted_perm (p : ℕ × Circle α) (l : List (ℕ × Circle α)) :
    (insert_sorted p l).Perm (p :: l) := by
  induction l with
  | nil => simp [insert_sorted]
  | cons q qs ih =>
    by_cases h : arg_le p q
    · simp [insert_sorted, h]
    · simp only [insert_sorted, if_neg h]
      exact ((ih.cons q).trans (List.Perm.swap p q qs))

theorem argsort_enum_perm (l : List (ℕ × Circle α)) : (argsort_enum l).Perm l := by
  induction l with
  | nil => simp [argsort_enum]
  | cons p ps ih =>
    exact (insert_sorted_perm p _).trans (ih.cons p)

theorem insert_sorted_pairwise (p : ℕ × Circle α) (l : List (ℕ × Circle α))
    (h : l.Pairwise arg_le) : (insert_sorted p l).Pairwise arg_le := by
  induction l with
  | nil => simp [insert_sorted]
  | cons q qs ih =>
    rcases List.pairwise_cons.mp h with ⟨hq, hqs⟩
    by_cases hle : arg_le p q
    · simp only [insert_sorted, if_pos hle]
      refine List.pairwise_cons.mpr ⟨?_, h⟩
      intro x hx
      rcases List.mem_cons.mp hx with hx | hx
      · exact hx ▸ hle
      · exact arg_le_trans hle (hq x hx)
    · have hqp : arg_le q p := (arg_le_total p q).resolve_left hle
      simp only [insert_sorted, if_neg hle]
      refine List.pairwise_cons.mpr ⟨?_, ih hqs⟩
      intro x hx
      have hx2 : x ∈ p :: qs := (insert_sorted_perm p qs).mem_iff.mp hx
      rcases List.mem_cons.mp hx2 with hx2 | hx2
      · exact hx2 ▸ hqp
      · exact hq x hx2

theorem argsort_enum_pairwise (l : List (ℕ × Circle α)) :
    (argsort_enum l).Pairwise arg_le := by
  induction l with
  | nil => simp [argsort_enum]
  | cons p ps ih => exact insert_sorted_pairwise p _ ih

theorem processing_order_perm (cs : List (Circle α)) :
    (processing_order cs).Perm cs.enum :=
  (List.reverse_perm _).trans (argsort_enum_perm cs.enum)

/-- Indices occurring in the processing order are pairwise distinct
(they are a permutation of `0, …, n-1`). -/
theorem processing_order_fst_ne (cs : List (Circle α)) :
    (processing_order cs).Pairwise (fun p q => p.1 ≠ q.1) := by
  have henum : cs.enum.Pairwise (fun p q => p.1 ≠ q.1) := by
    have h1 : (cs.enum.map Prod.fst).Nodup := by
      rw [List.enum_map_fst]; exact List.nodup_range _
    exact List.pairwise_map.mp h1
  have hsymm : ∀ {x y : ℕ × Circle α}, x.1 ≠ y.1 → y.1 ≠ x.1 := fun h => h.symm
  exact ((processing_order_perm cs).pairwise_iff hsymm).mpr henum

/-! ### Structural lemmas about the greedy loop -/

theorem keep_loop_mem_of_kept (minD : α) (rest kept : List (Circle α))
    {x : Circle α} (hx : x ∈ kept) : x ∈ keep_loop minD kept rest := by
  induction rest generalizing kept with
  | nil => simpa [keep_loop] using hx
  | cons c cr ih =>
    by_cases h : ∀ k ∈ kept, ¬ too_close c k minD
    · simp only [keep_loop, if_pos h]
      exact ih _ (List.mem_append_left _ hx)
    · simp only [keep_loop, if_neg h]
      exact ih _ hx

theorem keep_loop_subset (minD : α) (rest kept : List (Circle α))
    {x : Circle α} (hx : x ∈ keep_loop minD kept rest) :
    x ∈ kept ∨ x ∈ rest := by
  induction rest generalizing kept with
  | nil =>
    simp only [keep_loop] at hx
    exact Or.inl hx
  | cons c cr ih =>
    by_cases h : ∀ k ∈ kept, ¬ too_close c k minD
    · simp only [keep_loop, if_pos h] at hx
      rcases ih _ hx with hk | hr
      · rcases List.mem_append.mp hk with hk | hk
        · exact Or.inl hk
        · simp only [List.mem_singleton] at hk
          exact Or.inr (hk ▸ List.mem_cons_self c cr)
      · exact Or.inr (List.mem_cons_of_mem c hr)
    · simp only [keep_loop, if_neg h] at hx
      rcases ih _ hx with hk | hr
      · exact Or.inl hk
      · exact Or.inr (List.mem_cons_of_mem c hr)

/-- Pairwise far-apart invariant of the greedy loop: if the already-kept
circles are pairwise not too close, so is the final result. -/
theorem keep_loop_pairwise (minD : α) (rest kept : List (Circle α))
    (h : kept.Pairwise (fun a b => ¬ too_close b a minD)) :
    (keep_loop minD kept rest).Pairwise (fun a b => ¬ too_close b a minD) := by
  induction rest generalizing kept with
  | nil => simpa [keep_loop] using h
  | cons c cr ih =>
    by_cases hc : ∀ k ∈ kept, ¬ too_close c k minD
    · simp only [keep_loop, if_pos hc]
      refine ih _ (List.pairwise_append.mpr ⟨h, List.pairwise_singleton _ _, ?_⟩)
      intro a ha b hb
      simp only [List.mem_singleton] at hb
      exact hb ▸ hc a ha
    · simp only [keep_loop, if_neg hc]
      exact ih _ h

/-- C1: every detection set returned by `remove_overlapping_circles` is
distance-consistent: any two distinct retained circles have Euclidean center
distance at least `min_distance`.  (Stated via `Pairwise`, which covers every
pair of distinct positions in the returned list; the distance is the real
square root of the rational squared distance.) -/
theorem remove_overlapping_circles_min_distance (cs : List (Circle ℚ)) (minD : ℚ) :
    (remove_overlapping_circles cs minD).Pairwise
      (fun a b => (minD : ℝ) ≤ Real.sqrt ((dist2 a b : ℚ) : ℝ)) := by
  have hpw : (remove_overlapping_circles cs minD).Pairwise
      (fun a b => ¬ too_close b a minD) :=
    keep_loop_pairwise minD _ [] (List.Pairwise.nil)
  refine hpw.imp ?_
  intro a b hnc
  by_contra hlt
  push_neg at hlt
  exact hnc ((too_close_iff_sqrt b a minD).mpr (by rwa [dist2_comm b a]))

/-- C4 (amended): the resolver processes candidates in score-descending
order, but candidates with equal scores are processed in *reverse* original
input order (reversing the ascending argsort flips the tie order); the
processing order is a permutation of the enumerated input and is a
deterministic function of the input. -/
theorem processing_order_score_desc (cs : List (Circle ℚ)) :
    (processing_order cs).Pairwise
      (fun p q => q.2.accum < p.2.accum ∨ (q.2.accum = p.2.accum ∧ q.1 < p.1))
    ∧ (processing_order cs).Perm cs.enum := by
  refine ⟨?_, processing_order_perm cs⟩
  have hs : (argsort_enum cs.enum).Pairwise arg_le := argsort_enum_pairwise _
  have hr : (processing_order cs).Pairwise (fun p q => arg_le q p) := by
    unfold processing_order
    exact List.pairwise_reverse.mpr hs
  have hne := processing_order_fst_ne cs
  refine (hr.and hne).imp ?_
  rintro p q ⟨hle, hfst⟩
  rcases (show q.2.accum < p.2.accum ∨ (q.2.accum = p.2.accum ∧ q.1 ≤ p.1) from hle)
    with h | ⟨h, hi⟩
  · exact Or.inl h
  · exact Or.inr ⟨h, lt_of_le_of_ne hi hfst.symm⟩

/-- C4 counterexample: two circles with equal scores closer than
`min_distance`.  Under the claimed stable original-order tie-break the first
input circle would be kept, but the code keeps the second one: reversing the
ascending argsort processes ties in reverse input order. -/
theorem remove_overlapping_tie_reversed :
    remove_overlapping_circles [(⟨0, 0, 1, 7⟩ : Circle ℚ), ⟨3, 4, 1, 7⟩] 10
        = [⟨3, 4, 1, 7⟩] ∧
      remove_overlapping_circles [(⟨0, 0, 1, 7⟩ : Circle ℚ), ⟨3, 4, 1, 7⟩] 10
        ≠ [⟨0, 0, 1, 7⟩] := by
  have hrun : remove_overlapping_circles [(⟨0, 0, 1, 7⟩ : Circle ℚ), ⟨3, 4, 1, 7⟩] 10
      = [⟨3, 4, 1, 7⟩] := by
    norm_num [remove_overlapping_circles, processing_order, argsort_enum, insert_sorted,
      arg_le, keep_loop, too_close, dist2, List.enum, List.enumFrom]
  refine ⟨hrun, ?_⟩
  rw [hrun]
  intro hbad
  have : ((3 : ℚ), (4 : ℚ)) = ((0 : ℚ), (0 : ℚ)) := by
    have h1 := List.head_eq_of_cons_eq hbad
    exact congrArg (fun c => (c.cx, c.cy)) h1
  simp at this

/-- C10: on nonempty input the resolver returns a nonempty subset of the
input circles (each retained circle is an input circle, all fields
unchanged), and some retained circle has maximal accumulator score. -/
theorem remove_overlapping_nonempty_subset_max (cs : List (Circle ℚ)) (minD : ℚ)
    (h : cs ≠ []) :
    remove_overlapping_circles cs minD ≠ [] ∧
      (∀ c ∈ remove_overlapping_circles cs minD, c ∈ cs) ∧
      ∃ c ∈ remove_overlapping_circles cs minD, ∀ d ∈ cs, d.accum ≤ c.accum := by
  have hperm : (processing_order cs).Perm cs.enum := processing_order_perm cs
  have hlen : (processing_order cs).length = cs.length := by
    rw [hperm.length_eq, List.enum_length]
  have hne : processing_order cs ≠ [] := by
    intro hnil
    apply h
    have : cs.length = 0 := by rw [← hlen, hnil]; rfl
    exact List.length_eq_zero.mp this
  obtain ⟨p, rest, hpo⟩ := List.exists_cons_of_ne_nil hne
  have horder : (processing_order cs).map Prod.snd = p.2 :: rest.map Prod.snd := by
    rw [hpo]; rfl
  have hstep : remove_overlapping_circles cs minD
      = keep_loop minD [p.2] (rest.map Prod.snd) := by
    unfold remove_overlapping_circles
    rw [horder]
    simp [keep_loop]
  have hpmem : p.2 ∈ remove_overlapping_circles cs minD := by
    rw [hstep]
    exact keep_loop_mem_of_kept minD _ _ (List.mem_singleton_self _)
  have hsubset : ∀ c ∈ remove_overlapping_circles cs minD, c ∈ cs := by
    intro c hc
    rw [hstep] at hc
    rcases keep_loop_subset minD _ _ hc with hk | hr
    · simp only [List.mem_singleton] at hk
      subst hk
      have : p ∈ cs.enum := hperm.subset (hpo ▸ List.mem_cons_self p rest)
      have := List.mem_map_of_mem Prod.snd this
      rwa [List.enum_map_snd] at this
    · have hr2 : c ∈ (processing_order cs).map Prod.snd := by
        rw [horder]; exact List.mem_cons_of_mem _ hr
      rcases List.mem_map.mp hr2 with ⟨q, hq, hqc⟩
      have : q ∈ cs.enum := hperm.subset hq
      have := List.mem_map_of_mem Prod.snd this
      rw [List.enum_map_snd] at this
      exact hqc ▸ this
  refine ⟨List.ne_nil_of_mem hpmem, hsubset, p.2, hpmem, ?_⟩
  intro d hd
  rcases List.mem_map.mp (by rw [List.enum_map_snd]; exact hd :
      d ∈ cs.enum.map Prod.snd) with ⟨q, hq, hqd⟩
  have hq2 : q ∈ processing_order cs := hperm.mem_iff.mpr hq
  rw [hpo] at hq2
  rcases List.mem_cons.mp hq2 with hq2 | hq2
  · subst hq2
    exact hqd ▸ le_refl _
  · have hr : (processing_order cs).Pairwise (fun a b => arg_le b a) := by
      unfold processing_order
      exact List.pairwise_reverse.mpr (argsort_enum_pairwise _)
    rw [hpo] at hr
    have hqp : arg_le q p := (List.pairwise_cons.mp hr).1 q hq2
    rcases (show q.2.accum < p.2.accum ∨ (q.2.accum = p.2.accum ∧ q.1 ≤ p.1) from hqp)
      with hlt | ⟨heq, _⟩
    · exact hqd ▸ le_of_lt hlt
    · exact hqd ▸ le_of_eq heq

/-- C10 witness: a concrete two-circle input far enough apart; both are kept,
the higher-scored one is a maximal-score member of the output. -/
theorem remove_overlapping_nonempty_subset_max_witness :
    remove_overlapping_circles [(⟨0, 0, 1, 5⟩ : Circle ℚ), ⟨100, 0, 1, 9⟩] 10 ≠ [] ∧
      (∀ c ∈ remove_overlapping_circles [(⟨0, 0, 1, 5⟩ : Circle ℚ), ⟨100, 0, 1, 9⟩] 10,
        c ∈ [(⟨0, 0, 1, 5⟩ : Circle ℚ), ⟨100, 0, 1, 9⟩]) ∧
      ∃ c ∈ remove_overlapping_circles [(⟨0, 0, 1, 5⟩ : Circle ℚ), ⟨100, 0, 1, 9⟩] 10,
        ∀ d ∈ [(⟨0, 0, 1, 5⟩ : Circle ℚ), ⟨100, 0, 1, 9⟩], d.accum ≤ c.accum :=
  remove_overlapping_nonempty_subset_max _ 10 (List.cons_ne_nil _ _)

/-- C7: three circles with accumulator scores 10, 8, 5, where the second is
at Euclidean distance 5 from the first and the third is at distance 50 from
both; with `min_distance = 20` the resolver keeps exactly the first and third
circles (in score order), rejecting the second as too close to the first. -/
theorem resolver_three_circle_scenario (a b c : Circle ℝ)
    (ha : a.accum = 10) (hb : b.accum = 8) (hc : c.accum = 5)
    (hab : Real.sqrt (dist2 a b) = 5)
    (hac : Real.sqrt (dist2 a c) = 50)
    (_hbc : Real.sqrt (dist2 b c) = 50) :
    remove_overlapping_circles [a, b, c] 20 = [a, c] := by
  have h2ab : dist2 a b = 25 := by
    have h0 := Real.sq_sqrt (dist2_nonneg a b)
    rw [hab] at h0
    rw [← h0]; norm_num
  have h2ac : dist2 a c = 2500 := by
    have h0 := Real.sq_sqrt (dist2_nonneg a c)
    rw [hac] at h0
    rw [← h0]; norm_num
  have henum : ([a, b, c]).enum = [(0, a), (1, b), (2, c)] := rfl
  have hle1 : ¬ arg_le ((1 : ℕ), b) (2, c) := by norm_num [arg_le, hb, hc]
  have hle2 : ¬ arg_le ((0 : ℕ), a) (2, c) := by norm_num [arg_le, ha, hc]
  have hle3 : ¬ arg_le ((0 : ℕ), a) (1, b) := by norm_num [arg_le, ha, hb]
  have hsort : argsort_enum ([a, b, c]).enum = [(2, c), (1, b), (0, a)] := by
    rw [henum]
    simp only [argsort_enum, insert_sorted, if_neg hle1, if_neg hle2, if_neg hle3]
  have horder : (processing_order [a, b, c]).map Prod.snd = [a, b, c] := by
    unfold processing_order
    rw [hsort]
    rfl
  have hcond1 : ∀ k ∈ ([] : List (Circle ℝ)), ¬ too_close a k 20 := by simp
  have htc : too_close b a 20 :=
    ⟨by norm_num, by rw [dist2_comm, h2ab]; norm_num⟩
  have hcond2 : ¬ (∀ k ∈ [a], ¬ too_close b k 20) := by
    intro hall
    exact (hall a (List.mem_singleton_self a)) htc
  have hcond3 : ∀ k ∈ [a], ¬ too_close c k 20 := by
    intro k hk
    rw [List.mem_singleton] at hk
    subst hk
    rintro ⟨h20, hda⟩
    rw [dist2_comm, h2ac] at hda
    norm_num at hda
  calc remove_overlapping_circles [a, b, c] 20
      = keep_loop 20 [] [a, b, c] := by
        unfold remove_overlapping_circles
        rw [horder]
    _ = [a, c] := by
        simp only [keep_loop, if_pos hcond1, if_neg hcond2, if_pos hcond3,
          List.nil_append, List.cons_append]

/-- C7 witness: explicit real-coordinate circles realizing the scenario:
centers (0,0), (5,0) and (5/2, sqrt(9975)/2), scores 10, 8, 5. -/
theorem resolver_three_circle_scenario_witness :
    remove_overlapping_circles
        [(⟨0, 0, 75, 10⟩ : Circle ℝ), ⟨5, 0, 75, 8⟩,
          ⟨5 / 2, Real.sqrt (9975 / 4), 75, 5⟩] 20
      = [⟨0, 0, 75, 10⟩, ⟨5 / 2, Real.sqrt (9975 / 4), 75, 5⟩] := by
  have hs : Real.sqrt ((9975 : ℝ) / 4) ^ 2 = 9975 / 4 := Real.sq_sqrt (by norm_num)
  refine resolver_three_circle_scenario _ _ _ rfl rfl rfl ?_ ?_ ?_
  · show Real.sqrt ((0 - 5) ^ 2 + (0 - 0) ^ 2) = 5
    rw [show ((0 : ℝ) - 5) ^ 2 + (0 - 0) ^ 2 = 5 ^ 2 by norm_num]
    exact Real.sqrt_sq (by norm_num)
  · show Real.sqrt ((0 - 5 / 2) ^ 2 + (0 - Real.sqrt (9975 / 4)) ^ 2) = 50
    rw [show ((0 : ℝ) - 5 / 2) ^ 2 + (0 - Real.sqrt (9975 / 4)) ^ 2
        = (5 / 2) ^ 2 + Real.sqrt ((9975 : ℝ) / 4) ^ 2 by ring]
    rw [hs]
    rw [show ((5 : ℝ) / 2) ^ 2 + 9975 / 4 = 50 ^ 2 by norm_num]
    exact Real.sqrt_sq (by norm_num)
  · show Real.sqrt ((5 - 5 / 2) ^ 2 + (0 - Real.sqrt (9975 / 4)) ^ 2) = 50
    rw [show ((5 : ℝ) - 5 / 2) ^ 2 + (0 - Real.sqrt (9975 / 4)) ^ 2
        = (5 / 2) ^ 2 + Real.sqrt ((9975 : ℝ) / 4) ^ 2 by ring]
    rw [hs]
    rw [show ((5 : ℝ) / 2) ^ 2 + 9975 / 4 = 50 ^ 2 by norm_num]
    exact Real.sqrt_sq (by norm_num)

/-! ### Cross-class exclusion (`detect_rb_cells`, lines 193-216)

After overlap removal, `detect_rb_cells` drops each normal-cell circle whose
center distance to some malaria circle is strictly below the sum of the two
radii plus a margin (hard-coded to `20` at line 204; we expose it as the
parameter the spec names).  Crucially, the filtered arrays are only
substituted back when at least one circle survived
(`if len(keep_indices) > 0`, line 212): when every target overlaps, the
original arrays are returned unchanged. -/

/-- The drop test of line 204,
`distance < (radii[i] + mal_radii[j] + 20)`, with the square root translated
as in `too_close`. -/
def overlap_close (t m : Circle α) (margin : α) : Prop :=
  0 < t.radius + m.radius + margin ∧
    dist2 t m < (t.radius + m.radius + margin) ^ 2

instance (t m : Circle α) (margin : α) : Decidable (overlap_close t m margin) := by
  unfold overlap_close; infer_instance

/-- The per-circle keep decision of lines 198-209: keep a target circle iff
it is not `overlap_close` to any malaria circle. -/
def rb_keep_test (t : Circle α) (mals : List (Circle α)) (margin : α) : Bool :=
  decide (∀ m ∈ mals, ¬ overlap_close t m margin)

/-- Lines 196-216: filter the targets by `rb_keep_test`; the result replaces
the input only when at least one circle survived (`if len(keep_indices) > 0`). -/
def cross_class_exclude (targets mals : List (Circle α)) (margin : α) :
    List (Circle α) :=
  let kept := targets.filter (fun t => rb_keep_test t mals margin)
  if 0 < kept.length then kept else targets

/-- C3 (code bug): the normal candidate at (110,105) with radius 70 overlaps
the infected circle at (100,100) with radius 75 under margin 20
(distance² = 125 < 165²), yet when it is the only normal candidate the
guard `if len(keep_indices) > 0` skips the filtering and the circle is
retained instead of dropped. -/
theorem cross_class_exclude_keeps_lone_overlap :
    overlap_close (⟨110, 105, 70, 1⟩ : Circle ℚ) ⟨100, 100, 75, 1⟩ 20 ∧
      cross_class_exclude [(⟨110, 105, 70, 1⟩ : Circle ℚ)] [⟨100, 100, 75, 1⟩] 20
        = [⟨110, 105, 70, 1⟩] := by
  have hov : overlap_close (⟨110, 105, 70, 1⟩ : Circle ℚ) ⟨100, 100, 75, 1⟩ 20 := by
    constructor
    · norm_num
    · norm_num [dist2]
  refine ⟨hov, ?_⟩
  have hkeep : rb_keep_test (⟨110, 105, 70, 1⟩ : Circle ℚ) [⟨100, 100, 75, 1⟩] 20
      = false := by
    apply decide_eq_false
    intro hall
    exact (hall _ (List.mem_singleton_self _)) hov
  unfold cross_class_exclude
  simp [List.filter_cons, hkeep]

/-! ### Radius candidates (`np.arange`) and the detection glue -/

/-- Model of `np.arange(start, stop, step)` on integer arguments: the values
`start, start+step, …` strictly before `stop`, of length
`max(ceil((stop-start)/step), 0)`.  (`np.arange` with `step = 0` raises
inside numpy; the script never guards against it, and we model only the
resulting length 0 here.) -/
def np_arange_len (start stop step : ℤ) : ℕ :=
  if 0 < step then ((stop - start + step - 1) / step).toNat
  else if step < 0 then ((start - stop - step - 1) / (-step)).toNat
  else 0

def np_arange (start stop step : ℤ) : List ℤ :=
  (List.range (np_arange_len start stop step)).map (fun i => start + step * i)

/-- The radius-candidate construction and detection glue of
`detect_malarian_cells` / `detect_rb_cells` (lines 127-137 and 181-191):
build `hough_radii = np.arange(rmin, rmax, step)`, pass them to the external
`hough_circle` / `hough_circle_peaks` pair (taken as the parameter `houghF`),
then post-process with `remove_overlapping_circles`.  The script performs no
validation of the radius range anywhere on this path. -/
def detect_circles_stage (houghF : List ℤ → List (Circle ℚ))
    (rmin rmax step : ℤ) (minD : ℚ) : List (Circle ℚ) :=
  remove_overlapping_circles (houghF (np_arange rmin rmax step)) minD

/-- C5 (amended): with `radius_max ≤ radius_min` (and a positive step) the
candidate radius sequence is empty and the detection stage silently returns
the empty detection set; no configuration error is signalled anywhere (the
stage is a total function into detection lists).  `hF` is the documented
behaviour of `hough_circle_peaks` on an empty radius stack. -/
theorem empty_radius_range_silently_empty (houghF : List ℤ → List (Circle ℚ))
    (hF : houghF [] = []) (rmin rmax step : ℤ) (hstep : 0 < step)
    (hrange : rmax ≤ rmin) (minD : ℚ) :
    np_arange rmin rmax step = [] ∧
      detect_circles_stage houghF rmin rmax step minD = [] := by
  have hlen : np_arange_len rmin rmax step = 0 := by
    unfold np_arange_len
    rw [if_pos hstep]
    apply Int.toNat_of_nonpos
    have h1 : rmax - rmin + step - 1 < 1 * step := by linarith
    have h2 := (Int.ediv_lt_iff_lt_mul hstep).mpr h1
    omega
  have hnil : np_arange rmin rmax step = [] := by
    unfold np_arange
    rw [hlen]
    rfl
  refine ⟨hnil, ?_⟩
  unfold detect_circles_stage
  rw [hnil, hF]
  simp [remove_overlapping_circles, processing_order, argsort_enum, keep_loop]

/-- C5 witness: the empty range `radius_min = radius_max = 75` with step 2. -/
theorem empty_radius_range_silently_empty_witness :
    np_arange 75 75 2 = [] ∧
      detect_circles_stage (fun _ => []) 75 75 2 100 = [] :=
  empty_radius_range_silently_empty (fun _ => []) rfl 75 75 2 (by norm_num)
    (by norm_num) 100

/-- C5 counterexample: at the inverted range `radius_min = 80 > radius_max
= 75` the stage evaluates to the ordinary empty detection set — zero
detections, indistinguishable from an image with no circles; there is no
error value in the function's codomain to signal misconfiguration. -/
theorem empty_radius_range_no_error_cex :
    np_arange 80 75 2 = [] ∧
      detect_circles_stage (fun _ => []) 80 75 2 100 = [] := by
  constructor
  · rfl
  · show remove_overlapping_circles [] 100 = []
    simp [remove_overlapping_circles, processing_order, argsort_enum, keep_loop]

/-! ### Hue band of the HSV classifier (lines 254-258) -/

/-- The hue filter of `create_malaria_mask_hsv`: an ordinary band when
`hue_min ≤ hue_max` and a circular band wrapping across the 0/1 boundary
otherwise.  The script fixes `HUE_MIN`/`HUE_MAX` as module-level
configurable parameters; the branch structure is embedded over the
parameters. -/
def hue_band (hmin hmax hue : ℚ) : Bool :=
  if hmin ≤ hmax then decide (hmin ≤ hue ∧ hue ≤ hmax)
  else decide (hmin ≤ hue ∨ hue ≤ hmax)

/-- C6: when `hue_min > hue_max` the accepted hue band wraps: a hue is
accepted iff `hue ≥ hue_min` or `hue ≤ hue_max`. -/
theorem hue_band_wraparound (hmin hmax hue : ℚ) (h : hmax < hmin) :
    (hue_band hmin hmax hue = true ↔ (hmin ≤ hue ∨ hue ≤ hmax)) := by
  unfold hue_band
  rw [if_neg (not_le.mpr h)]
  exact decide_eq_true_iff

/-- C6 witness: with `hue_min = 0.9 > hue_max = 0.1`, hue 0.95 is accepted
and hue 0.5 is rejected. -/
theorem hue_band_wraparound_witness :
    hue_band (9 / 10) (1 / 10) (95 / 100) = true ∧
      hue_band (9 / 10) (1 / 10) (5 / 10) = false := by
  constructor
  · exact (hue_band_wraparound _ _ _ (by norm_num)).mpr (by norm_num)
  · have h := hue_band_wraparound ((9 : ℚ) / 10) (1 / 10) (5 / 10) (by norm_num)
    rw [Bool.eq_false_iff]
    intro hc
    rcases h.mp hc with h1 | h1 <;> norm_num at h1

/-! ### Images, masks, and binary morphology

2-D arrays are embedded as a pair of dimensions with a total pixel function
(values outside the bounds are irrelevant to every operation below).  The
binary morphology follows skimage: `binary_dilation` treats out-of-image
pixels as `False`, `binary_erosion` treats them as `True` (scipy.ndimage
`border_value` 0 resp. 1), and both `disk` and the default 3×3 cross
footprint are symmetric, so footprint mirroring is immaterial. -/

structure Grid (α : Type) where
  h : ℕ
  w : ℕ
  pix : ℕ → ℕ → α

abbrev BGrid := Grid Bool

/-- Pixel lookup with a border value for out-of-image coordinates. -/
def getB (g : BGrid) (b : Bool) (r c : ℤ) : Bool :=
  if 0 ≤ r ∧ r < (g.h : ℤ) ∧ 0 ≤ c ∧ c < (g.w : ℤ) then g.pix r.toNat c.toNat else b

structure Footprint where
  rad : ℕ
  mem : ℤ → ℤ → Bool

/-- Model of `skimage.morphology.disk n`: offsets at Euclidean distance at most `n`
from the center. -/
def disk (n : ℕ) : Footprint :=
  ⟨n, fun dy dx => decide (dy ^ 2 + dx ^ 2 ≤ (n : ℤ) ^ 2)⟩

/-- The default structuring element of `binary_closing` / `binary_opening`
when no footprint is passed (`binarize_with_sobel`, lines 74-75): the 3×3
cross `scipy.ndimage.generate_binary_structure(2, 1)`. -/
def cross1 : Footprint :=
  ⟨1, fun dy dx => decide (dy.natAbs + dx.natAbs ≤ 1)⟩

/-- All candidate offsets of a footprint's bounding box. -/
def offsets (f : Footprint) : Finset (ℤ × ℤ) :=
  Finset.Icc (-(f.rad : ℤ)) f.rad ×ˢ Finset.Icc (-(f.rad : ℤ)) f.rad

def binary_dilation (m : BGrid) (f : Footprint) : BGrid :=
  ⟨m.h, m.w, fun r c =>
    decide (∃ d ∈ offsets f, f.mem d.1 d.2 = true ∧
      getB m false ((r : ℤ) + d.1) ((c : ℤ) + d.2) = true)⟩

def binary_erosion (m : BGrid) (f : Footprint) : BGrid :=
  ⟨m.h, m.w, fun r c =>
    decide (∀ d ∈ offsets f, f.mem d.1 d.2 = true →
      getB m true ((r : ℤ) + d.1) ((c : ℤ) + d.2) = true)⟩

def binary_closing (m : BGrid) (f : Footprint) : BGrid :=
  binary_erosion (binary_dilation m f) f

def binary_opening (m : BGrid) (f : Footprint) : BGrid :=
  binary_dilation (binary_erosion m f) f

/-! ### Connected components and the area filter (lines 279-283)

`label(combined_mask)` partitions the true pixels into 8-connected regions
(skimage's default connectivity for 2-D input is full connectivity), and the
loop over `regionprops` re-inserts exactly the pixels of regions whose
`area` (pixel count) is at least `MIN_MALARIA_AREA`.  We embed the component
of a pixel by saturating its neighborhood `h*w` times, which reaches every
pixel of the component. -/

def support (m : BGrid) : Finset (ℕ × ℕ) :=
  (Finset.range m.h ×ˢ Finset.range m.w).filter (fun p => m.pix p.1 p.2 = true)

/-- Adjacency with full (8-pixel) connectivity of distinct grid cells. -/
def adj8 (p q : ℕ × ℕ) : Prop :=
  p ≠ q ∧ p.1 ≤ q.1 + 1 ∧ q.1 ≤ p.1 + 1 ∧ p.2 ≤ q.2 + 1 ∧ q.2 ≤ p.2 + 1

instance (p q : ℕ × ℕ) : Decidable (adj8 p q) := by
  unfold adj8; infer_instance

def cc_step (m : BGrid) (s : Finset (ℕ × ℕ)) : Finset (ℕ × ℕ) :=
  s ∪ (support m).filter (fun q => ∃ p ∈ s, adj8 p q)

def cc_iter (m : BGrid) : ℕ → ℕ × ℕ → Finset (ℕ × ℕ)
  | 0, p => if m.pix p.1 p.2 = true then {p} else ∅
  | n + 1, p => cc_step m (cc_iter m n p)

/-- The 8-connected component of `p` in the mask. -/
def component (m : BGrid) (p : ℕ × ℕ) : Finset (ℕ × ℕ) :=
  cc_iter m (m.h * m.w) p

/-- Embedding of `region.area` for the region of `p` in `label(mask)`. -/
def region_area (m : BGrid) (p : ℕ × ℕ) : ℕ :=
  (component m p).card

/-! ### The HSV infection-color classifier (`create_malaria_mask_hsv`, lines 235-297) -/

/-- Model of `skimage.color.rgb2hsv` per pixel, on float channels in [0,1]:
value is the channel maximum, saturation is `delta/v` (0 when `delta = 0`),
and hue is assembled from the piecewise formula with the blue-maximum branch
taking precedence on ties (numpy writes the three cases sequentially, last
write wins), wrapped into [0,1) by `% 1.0`. -/
def rgb2hsv_pix (p : ℚ × ℚ × ℚ) : ℚ × ℚ × ℚ :=
  let r := p.1
  let g := p.2.1
  let b := p.2.2
  let v := max r (max g b)
  let mn := min r (min g b)
  let d := v - mn
  let s := if d = 0 then 0 else d / v
  let hraw := if b = v then 4 + (r - g) / d
              else if g = v then 2 + (b - r) / d
              else (g - b) / d
  let hh := if d = 0 then 0 else Int.fract (hraw / 6)
  (hh, s, v)

def sat_band (s : ℚ) : Bool := decide (SAT_MIN ≤ s ∧ s ≤ SAT_MAX)

def val_band (v : ℚ) : Bool := decide (VAL_MIN ≤ v ∧ v ≤ VAL_MAX)

/-- The combined per-pixel color test `hue_mask & sat_mask & val_mask`
(lines 254-267). -/
def hsv_pass (p : ℚ × ℚ × ℚ) : Bool :=
  hue_band HUE_MIN HUE_MAX (rgb2hsv_pix p).1 &&
    sat_band (rgb2hsv_pix p).2.1 && val_band (rgb2hsv_pix p).2.2

/-- Line 270: `combined_mask = combined_mask & binary_cells` — the combined
color mask intersected with the binarized cell mask.  This is the mask state
immediately before the morphological cleanup. -/
def combined_with_cells (img : Grid (ℚ × ℚ × ℚ)) (cells : BGrid) : BGrid :=
  ⟨img.h, img.w, fun r c => hsv_pass (img.pix r c) && cells.pix r c⟩

/-- Embedding of `create_malaria_mask_hsv` (lines 235-297): color-band filtering,
intersection with the cell mask, closing with `disk 5`, opening with
`disk 3`, then removal of connected regions of area below
`MIN_MALARIA_AREA`. -/
def create_malaria_mask_hsv (img : Grid (ℚ × ℚ × ℚ)) (cells : BGrid) : BGrid :=
  let m2 := binary_opening
    (binary_closing (combined_with_cells img cells) (disk HSV_MORPH_DISK_CLOSE))
    (disk HSV_MORPH_DISK_OPEN)
  ⟨m2.h, m2.w, fun r c =>
    m2.pix r c && decide (MIN_MALARIA_AREA ≤ region_area m2 (r, c))⟩

/-- C2 (amended): the color mask intersected with the cell mask — the mask
fed into the morphological cleanup — is a subset of the input cell mask.
(The final returned mask is not, in general: see the counterexample.) -/
theorem combined_mask_subset_cells (img : Grid (ℚ × ℚ × ℚ)) (cells : BGrid)
    (r c : ℕ) (hset : (combined_with_cells img cells).pix r c = true) :
    cells.pix r c = true := by
  have h2 : (hsv_pass (img.pix r c) && cells.pix r c) = true := hset
  exact ((Bool.and_eq_true _ _).mp h2).2

/-- C2 witness for the amended subset property: a 1×1 dark-blue image whose
single pixel passes every color band, over an all-true cell mask. -/
theorem combined_mask_subset_cells_witness :
    (⟨1, 1, fun _ _ => true⟩ : BGrid).pix 0 0 = true := by
  refine combined_mask_subset_cells ⟨1, 1, fun _ _ => ((0 : ℚ), (0 : ℚ), 1 / 2)⟩
    ⟨1, 1, fun _ _ => true⟩ 0 0 ?_
  show (hsv_pass (0, 0, 1 / 2) && true) = true
  norm_num [hsv_pass, rgb2hsv_pix, hue_band, sat_band, val_band,
    HUE_MIN, HUE_MAX, SAT_MIN, SAT_MAX, VAL_MIN, VAL_MAX, Int.fract,
    max_def, min_def]

/-! ### C2 counterexample machinery

Binary closing is not anti-extensive: it can switch on pixels that are off
in its input (gap filling).  On a 1×203 image whose cell mask is true
everywhere except column 101, closing with `disk 5` fills the gap, opening
keeps it, and the single 203-pixel region passes the 200-pixel area filter,
so the final classifier mask contains a pixel outside the cell mask. -/

theorem origin_mem_offsets (f : Footprint) : ((0 : ℤ), (0 : ℤ)) ∈ offsets f := by
  unfold offsets
  rw [Finset.mem_product]
  constructor
  · rw [Finset.mem_Icc]
    omega
  · rw [Finset.mem_Icc]
    omega

theorem binary_erosion_all_true (m : BGrid) (f : Footprint)
    (hall : ∀ r c, r < m.h → c < m.w → m.pix r c = true) :
    ∀ r c, (binary_erosion m f).pix r c = true := by
  intro r c
  show decide (∀ d ∈ offsets f, f.mem d.1 d.2 = true →
      getB m true ((r : ℤ) + d.1) ((c : ℤ) + d.2) = true) = true
  rw [decide_eq_true_iff]
  intro d _ _
  unfold getB
  by_cases hb : 0 ≤ (r : ℤ) + d.1 ∧ (r : ℤ) + d.1 < (m.h : ℤ) ∧
      0 ≤ (c : ℤ) + d.2 ∧ (c : ℤ) + d.2 < (m.w : ℤ)
  · rw [if_pos hb]
    apply hall
    · omega
    · omega
  · rw [if_neg hb]

theorem binary_dilation_all_true (m : BGrid) (f : Footprint)
    (h00 : f.mem 0 0 = true)
    (hall : ∀ r c, r < m.h → c < m.w → m.pix r c = true) :
    ∀ r c, r < m.h → c < m.w → (binary_dilation m f).pix r c = true := by
  intro r c hr hc
  show decide (∃ d ∈ offsets f, f.mem d.1 d.2 = true ∧
      getB m false ((r : ℤ) + d.1) ((c : ℤ) + d.2) = true) = true
  rw [decide_eq_true_iff]
  refine ⟨(0, 0), origin_mem_offsets f, h00, ?_⟩
  unfold getB
  rw [if_pos (by refine ⟨by omega, by omega, by omega, by omega⟩)]
  apply hall
  · omega
  · omega

/-- One saturation round on an everywhere-true single-row mask widens the
reached column interval by one in each direction. -/
theorem cc_iter_row (m : BGrid) (N : ℕ) (hh : m.h = 1) (hw : m.w = N)
    (hall : ∀ c, c < N → m.pix 0 c = true) (c0 : ℕ) (hc0 : c0 < N) :
    ∀ f : ℕ, cc_iter m f (0, c0) =
      ((Finset.range N).filter (fun c => c0 - f ≤ c ∧ c ≤ c0 + f)).image
        (fun c => ((0 : ℕ), c)) := by
  intro f
  induction f with
  | zero =>
    show (if m.pix 0 c0 = true then {((0 : ℕ), c0)} else ∅) = _
    rw [if_pos (hall c0 hc0)]
    ext q
    simp only [Finset.mem_singleton, Finset.mem_image, Finset.mem_filter,
      Finset.mem_range, Nat.sub_zero, Nat.add_zero]
    constructor
    · rintro rfl
      exact ⟨c0, ⟨hc0, le_refl c0, le_refl c0⟩, rfl⟩
    · rintro ⟨c, ⟨hcN, h1, h2⟩, rfl⟩
      have hcc : c = c0 := le_antisymm h2 h1
      rw [hcc]
  | succ n ih =>
    show cc_step m (cc_iter m n (0, c0)) = _
    rw [ih]
    unfold cc_step support
    ext q
    obtain ⟨qr, qc⟩ := q
    simp only [Finset.mem_union, Finset.mem_filter, Finset.mem_image,
      Finset.mem_product, Finset.mem_range, hh, hw, Prod.mk.injEq, adj8]
    constructor
    · rintro (⟨c, ⟨hcN, hcl, hcu⟩, hq0, hqc⟩ | ⟨⟨⟨hqr, hqcN⟩, _⟩, p, hp, hadj⟩)
      · exact ⟨c, ⟨hcN, by omega, by omega⟩, hq0, hqc⟩
      · have hqr0 : qr = 0 := by omega
        rcases hp with ⟨c, ⟨hcN, hcl, hcu⟩, rfl⟩
        obtain ⟨_, ha1, ha2, ha3, ha4⟩ := hadj
        exact ⟨qc, ⟨hqcN, by omega, by omega⟩, hqr0.symm, rfl⟩
    · rintro ⟨c, ⟨hcN, hcl, hcu⟩, hq0, hqc⟩
      subst hq0
      subst hqc
      by_cases hin : c0 - n ≤ c ∧ c ≤ c0 + n
      · exact Or.inl ⟨c, ⟨hcN, hin.1, hin.2⟩, rfl, rfl⟩
      · refine Or.inr ⟨⟨⟨by omega, hcN⟩, hall c hcN⟩, ?_⟩
        by_cases hlt : c < c0
        · refine ⟨(0, c + 1), ⟨c + 1, ⟨by omega, by omega, by omega⟩, rfl⟩, ?_⟩
          refine ⟨?_, by omega, by omega, by omega, by omega⟩
          exact fun hpair => absurd (congrArg Prod.snd hpair) (by omega)
        · refine ⟨(0, c - 1), ⟨c - 1, ⟨by omega, by omega, by omega⟩, rfl⟩, ?_⟩
          refine ⟨?_, by omega, by omega, by omega, by omega⟩
          exact fun hpair => absurd (congrArg Prod.snd hpair) (by omega)

/-- On an everywhere-true 1×203 mask, the region of pixel (0,101) is the
whole row, of area 203. -/
theorem region_area_row (m : BGrid) (hh : m.h = 1) (hw : m.w = 203)
    (hall : ∀ c, c < 203 → m.pix 0 c = true) :
    region_area m (0, 101) = 203 := by
  unfold region_area component
  have hfuel : m.h * m.w = 203 := by rw [hh, hw]
  rw [hfuel, cc_iter_row m 203 hh hw hall 101 (by omega) 203]
  have hfull : ((Finset.range 203).filter
      (fun c => 101 - 203 ≤ c ∧ c ≤ 101 + 203)) = Finset.range 203 := by
    apply Finset.filter_true_of_mem
    intro x hx
    rw [Finset.mem_range] at hx
    omega
  rw [hfull]
  rw [Finset.card_image_of_injective _ (fun a b hab => by simpa using hab)]
  exact Finset.card_range 203

/-- The counterexample image: a 1×203 strip of a dark blue that passes all
three HSV bands. -/
def ex_img : Grid (ℚ × ℚ × ℚ) := ⟨1, 203, fun _ _ => (0, 0, 1 / 2)⟩

/-- The counterexample cell mask: true on the whole row except column 101. -/
def ex_cells : BGrid := ⟨1, 203, fun r c => decide (r = 0 ∧ c < 203 ∧ c ≠ 101)⟩

theorem hsv_pass_blue : hsv_pass (0, 0, 1 / 2) = true := by
  norm_num [hsv_pass, rgb2hsv_pix, hue_band, sat_band, val_band,
    HUE_MIN, HUE_MAX, SAT_MIN, SAT_MAX, VAL_MIN, VAL_MAX, Int.fract,
    max_def, min_def]

theorem ex_combined_eq : combined_with_cells ex_img ex_cells = ex_cells := by
  unfold combined_with_cells ex_img ex_cells
  congr 1
  funext r c
  simp only [hsv_pass_blue, Bool.true_and]

theorem ex_dilation_true (r c : ℕ) (hr : r < 1) (hc : c < 203) :
    (binary_dilation ex_cells (disk HSV_MORPH_DISK_CLOSE)).pix r c = true := by
  have hr0 : r = 0 := by omega
  subst hr0
  show decide (∃ d ∈ offsets (disk HSV_MORPH_DISK_CLOSE),
      (disk HSV_MORPH_DISK_CLOSE).mem d.1 d.2 = true ∧
      getB ex_cells false (((0 : ℕ) : ℤ) + d.1) ((c : ℤ) + d.2) = true) = true
  rw [decide_eq_true_iff]
  by_cases h101 : c = 101
  · subst h101
    refine ⟨(0, -1), ?_, ?_, ?_⟩
    · decide
    · decide
    · decide
  · refine ⟨(0, 0), origin_mem_offsets _, ?_, ?_⟩
    · decide
    · have hb : (0 : ℤ) ≤ ((0 : ℕ) : ℤ) + 0 ∧
          ((0 : ℕ) : ℤ) + 0 < (ex_cells.h : ℤ) ∧
          (0 : ℤ) ≤ (c : ℤ) + 0 ∧ (c : ℤ) + 0 < (ex_cells.w : ℤ) := by
        have e1 : ex_cells.h = 1 := rfl
        have e2 : ex_cells.w = 203 := rfl
        rw [e1, e2]
        omega
      show getB ex_cells false (((0 : ℕ) : ℤ) + 0) ((c : ℤ) + 0) = true
      unfold getB
      rw [if_pos hb]
      have e3 : ((((0 : ℕ) : ℤ)) + 0).toNat = 0 := rfl
      have e4 : ((c : ℤ) + 0).toNat = c := by omega
      rw [e3, e4]
      show decide (0 = 0 ∧ c < 203 ∧ c ≠ 101) = true
      simp [hc, h101]

theorem ex_opened_true :
    ∀ r c, r < 1 → c < 203 →
      (binary_opening (binary_closing ex_cells (disk HSV_MORPH_DISK_CLOSE))
        (disk HSV_MORPH_DISK_OPEN)).pix r c = true := by
  have hclosed : ∀ r c,
      (binary_closing ex_cells (disk HSV_MORPH_DISK_CLOSE)).pix r c = true := by
    show ∀ r c, (binary_erosion (binary_dilation ex_cells (disk HSV_MORPH_DISK_CLOSE))
      (disk HSV_MORPH_DISK_CLOSE)).pix r c = true
    apply binary_erosion_all_true
    intro r c hr hc
    exact ex_dilation_true r c hr hc
  have heroded : ∀ r c,
      (binary_erosion (binary_closing ex_cells (disk HSV_MORPH_DISK_CLOSE))
        (disk HSV_MORPH_DISK_OPEN)).pix r c = true := by
    apply binary_erosion_all_true
    intro r c hr hc
    exact hclosed r c
  intro r c hr hc
  show (binary_dilation (binary_erosion (binary_closing ex_cells
      (disk HSV_MORPH_DISK_CLOSE)) (disk HSV_MORPH_DISK_OPEN))
      (disk HSV_MORPH_DISK_OPEN)).pix r c = true
  apply binary_dilation_all_true _ _ (by decide) _ r c hr hc
  intro r2 c2 hr2 hc2
  exact heroded r2 c2

set_option maxRecDepth 8000 in
/-- C2 counterexample: on `ex_img`/`ex_cells`, the final classifier mask is
true at pixel (0,101) although the cell mask is false there — morphological
closing fills the one-pixel gap, opening keeps it, and the resulting
203-pixel region passes the 200-pixel area filter. -/
theorem malaria_mask_not_subset_cex :
    (create_malaria_mask_hsv ex_img ex_cells).pix 0 101 = true ∧
      ex_cells.pix 0 101 = false := by
  constructor
  · show ((binary_opening (binary_closing (combined_with_cells ex_img ex_cells)
        (disk HSV_MORPH_DISK_CLOSE)) (disk HSV_MORPH_DISK_OPEN)).pix 0 101
      && decide (MIN_MALARIA_AREA ≤ region_area (binary_opening (binary_closing
        (combined_with_cells ex_img ex_cells) (disk HSV_MORPH_DISK_CLOSE))
        (disk HSV_MORPH_DISK_OPEN)) (0, 101))) = true
    rw [ex_combined_eq]
    rw [Bool.and_eq_true]
    refine ⟨ex_opened_true 0 101 (by omega) (by omega), ?_⟩
    rw [decide_eq_true_iff]
    have harea : region_area (binary_opening (binary_closing ex_cells
        (disk HSV_MORPH_DISK_CLOSE)) (disk HSV_MORPH_DISK_OPEN)) (0, 101) = 203 := by
      apply region_area_row
      · rfl
      · rfl
      · intro c hc
        exact ex_opened_true 0 c (by omega) hc
    rw [harea]
    decide
  · decide

/-! ### Edge binarization (`binarize_with_sobel`, lines 61-77) -/

/-- Embedding of `edges.max()`: the maximum over all pixels (for the nonempty arrays the
script feeds it, the head-seeded fold is exactly the array maximum). -/
def max_val (g : Grid ℚ) : ℚ :=
  match (List.range g.h).flatMap (fun r => (List.range g.w).map (fun c => g.pix r c)) with
  | [] => 0
  | x :: xs => xs.foldl max x

/-- Lines 66-71: `limiar = edges.max() * threshold_multiplier;
binary = edges.copy(); binary[binary <= limiar] = 0;
binary[binary > limiar] = 1` — the two sequential in-place passes, embedded
pointwise in the same order. -/
def binarize_pre (edges : Grid ℚ) (tm : ℚ) : Grid ℚ :=
  ⟨edges.h, edges.w, fun r c =>
    let v1 := if edges.pix r c ≤ max_val edges * tm then 0 else edges.pix r c
    if max_val edges * tm < v1 then 1 else v1⟩

/-- skimage's binary morphology casts its input to booleans (`x != 0`). -/
def to_bgrid (g : Grid ℚ) : BGrid :=
  ⟨g.h, g.w, fun r c => decide (g.pix r c ≠ 0)⟩

/-- Embedding of `binarize_with_sobel` (lines 61-77): Sobel edge map (external, passed as
`sobelF`), relative threshold `edges.max() * threshold_multiplier`, then
closing and opening with the default 3×3 cross footprint.  Returns the
cleaned binary mask and the raw edge map. -/
def binarize_with_sobel (sobelF : Grid ℚ → Grid ℚ) (img : Grid ℚ) (tm : ℚ) :
    BGrid × Grid ℚ :=
  (binary_opening (binary_closing (to_bgrid (binarize_pre (sobelF img) tm)) cross1)
    cross1, sobelF img)

/-- C8: the binarization threshold is `max(edge_map) * threshold_multiplier`,
and before the morphological cleanup a pixel maps to 0 iff its edge
magnitude is at most the threshold, and to 1 iff it exceeds it.  The two
sequential in-place passes of the source coincide with this single
conditional because the pixel's edge magnitude is nonnegative (as Sobel
magnitudes are). -/
theorem binarize_pre_threshold (edges : Grid ℚ) (tm : ℚ) (r c : ℕ)
    (hnn : 0 ≤ edges.pix r c) :
    (binarize_pre edges tm).pix r c =
      if edges.pix r c ≤ max_val edges * tm then 0 else 1 := by
  show (let v1 := if edges.pix r c ≤ max_val edges * tm then 0 else edges.pix r c
    if max_val edges * tm < v1 then 1 else v1) = _
  by_cases hv : edges.pix r c ≤ max_val edges * tm
  · simp only [if_pos hv]
    rw [if_neg (not_lt.mpr (le_trans hnn hv))]
  · simp only [if_neg hv]
    rw [if_pos (not_le.mp hv)]

/-- C8 witness: a 1×2 edge map with magnitudes 2 and 10 and multiplier 1/2
(threshold 5): the pixel with magnitude 2 maps to 0. -/
theorem binarize_pre_threshold_witness :
    (binarize_pre ⟨1, 2, fun _ c => if c = 0 then 2 else 10⟩ (1 / 2)).pix 0 0
      = 0 := by
  rw [binarize_pre_threshold ⟨1, 2, fun _ c => if c = 0 then 2 else 10⟩ (1 / 2) 0 0
    (by norm_num)]
  have hmax : max_val ⟨1, 2, fun _ c => if c = 0 then 2 else 10⟩ = 10 := by
    show ((if (0 : ℕ) = 0 then (2 : ℚ) else 10) :: [if (1 : ℕ) = 0 then (2 : ℚ) else 10].foldr (fun a l => a :: l) []).tail.foldl max (if (0 : ℕ) = 0 then (2 : ℚ) else 10) = 10
    norm_num [max_def]
  rw [hmax]
  norm_num

/-! ### Pipeline wiring (lines 305-326) -/

/-- Model of `skimage.color.rgb2gray` per pixel: the luma combination
`0.2125 R + 0.7154 G + 0.0721 B`. -/
def rgb2gray_pix (p : ℚ × ℚ × ℚ) : ℚ :=
  2125 / 10000 * p.1 + 7154 / 10000 * p.2.1 + 721 / 10000 * p.2.2

def rgb2gray (img : Grid (ℚ × ℚ × ℚ)) : Grid ℚ :=
  ⟨img.h, img.w, fun r c => rgb2gray_pix (img.pix r c)⟩

/-- Embedding of `(sobel(x) * 255).astype("uint8")` (lines 107 and 119): scale by 255 and
cast to an 8-bit integer (numpy's float→uint8 cast truncates toward zero and
wraps modulo 256; Sobel magnitudes are nonnegative, where truncation is the
floor). -/
def scale255_uint8 (g : Grid ℚ) : Grid ℚ :=
  ⟨g.h, g.w, fun r c => (((g.pix r c * 255).floor % 256 : ℤ) : ℚ)⟩

def bool_to_q (m : BGrid) : Grid ℚ :=
  ⟨m.h, m.w, fun r c => if m.pix r c then 1 else 0⟩

/-- Embedding of `process_malarian_cells` (lines 105-108): the malaria binary mask is
passed through; its Sobel edge map is scaled to uint8. -/
def process_malarian_cells (sobelF : Grid ℚ → Grid ℚ) (malBin : BGrid) :
    BGrid × Grid ℚ :=
  (malBin, scale255_uint8 (sobelF (bool_to_q malBin)))

/-- Embedding of `process_rb_cells` (lines 110-123): dilate the malaria mask with
`disk(MALARIA_MASK_DILATION)`, zero the dilated region out of the all-cells
mask, and zero it out of the uint8-scaled Sobel edge map of the grayscale
image. -/
def process_rb_cells (malCells : BGrid) (allCells : BGrid) (gray : Grid ℚ)
    (sobelF : Grid ℚ → Grid ℚ) : BGrid × Grid ℚ :=
  let mask := binary_dilation malCells (disk MALARIA_MASK_DILATION)
  (⟨allCells.h, allCells.w,
      fun r c => if mask.pix r c then false else allCells.pix r c⟩,
    ⟨gray.h, gray.w,
      fun r c => if mask.pix r c then 0 else (scale255_uint8 (sobelF gray)).pix r c⟩)

/-- Lines 313-314: `malaria_binary = binary_all_cells.copy();
malaria_binary[~malaria_mask] = 0`. -/
def apply_malaria_mask (binAll : BGrid) (mm : BGrid) : BGrid :=
  ⟨binAll.h, binAll.w, fun r c => binAll.pix r c && mm.pix r c⟩

/-- The top-level pipeline (lines 305-326), with the external Sobel filter
and Hough peak extraction (`houghF radii edges min_xydistance total_peaks`)
as function parameters: grayscale conversion, Sobel binarization, HSV
malaria mask, per-class processing, per-class detection with overlap
resolution, and cross-class exclusion with margin 20.  Returns the final
malaria and normal-cell detection lists. -/
def run_pipeline (sobelF : Grid ℚ → Grid ℚ)
    (houghF : List ℤ → Grid ℚ → ℚ → ℕ → List (Circle ℚ))
    (img : Grid (ℚ × ℚ × ℚ)) : List (Circle ℚ) × List (Circle ℚ) :=
  let gray := rgb2gray img
  let ba := binarize_with_sobel sobelF gray THRESHOLD_MULTIPLIER
  let mm := create_malaria_mask_hsv img ba.1
  let malBin := apply_malaria_mask ba.1 mm
  let pm := process_malarian_cells sobelF malBin
  let pr := process_rb_cells pm.1 ba.1 gray sobelF
  let malC := remove_overlapping_circles
    (houghF (np_arange MALARIA_RADIUS_MIN MALARIA_RADIUS_MAX MALARIA_RADIUS_STEP)
      pm.2 MIN_DISTANCE_MALARIA MAX_MALARIA_CELLS) MIN_DISTANCE_MALARIA
  let rbRaw := remove_overlapping_circles
    (houghF (np_arange RBC_RADIUS_MIN RBC_RADIUS_MAX RBC_RADIUS_STEP)
      pr.2 MIN_DISTANCE_RBC MAX_RBC_CELLS) MIN_DISTANCE_RBC
  (malC, cross_class_exclude rbRaw malC 20)

/-- C9: the pipeline is deterministic.  Every stage is a pure function of
its inputs — the script has no randomness and no state carried across runs —
so two runs on the same image with the same configuration and the same
(deterministic) external primitives produce identical detection sets. -/
theorem run_pipeline_deterministic (sobelF : Grid ℚ → Grid ℚ)
    (houghF : List ℤ → Grid ℚ → ℚ → ℕ → List (Circle ℚ))
    (img : Grid (ℚ × ℚ × ℚ)) (out1 out2 : List (Circle ℚ) × List (Circle ℚ))
    (h1 : out1 = run_pipeline sobelF houghF img)
    (h2 : out2 = run_pipeline sobelF houghF img) :
    out1 = out2 :=
  h1.trans h2.symm

/-- C9 witness: two runs on a concrete 1×1 image with concrete external
primitives agree. -/
theorem run_pipeline_deterministic_witness :
    run_pipeline id (fun _ _ _ _ => []) ⟨1, 1, fun _ _ => (0, 0, 1 / 2)⟩
      = run_pipeline id (fun _ _ _ _ => []) ⟨1, 1, fun _ _ => (0, 0, 1 / 2)⟩ :=
  run_pipeline_deterministic _ _ _ _ _ rfl rfl

end MalariaDiag
